import Mathlib

/-!
Shallow embedding of `src/cache_simulator.c`: a set-associative cache
simulator with LRU replacement implemented over doubly linked queues,
global hit/miss/eviction/dirty counters, and a final dirty-line sweep at
teardown.  Each definition below mirrors one piece of the C source:

* `cache_line`                — the `cache_line` struct (valid bit, dirty bit, tag);
* a set is a `List cache_line`, head = most recently used node, matching the
  queue (`queue_set_t`) whose `head` is the MRU node and `tail` the LRU node;
* `scanHit`                   — the hit-search loop of `count` (lines 72–103),
  returning the found line and the queue with that node unlinked (the
  relative order of all other nodes is preserved, as the pointer surgery does);
* `count`                     — the `count` function (lines 67–151); the
  `Except` error case models the null-pointer dereference that the C code
  performs when the eviction branch runs on an empty queue (possible only
  when `E ≤ 0`), carrying the counter state at the moment of the crash;
* `decodeTag`, `decodeSetIndexRaw`, `decodeSetIndex` — the address decode in
  `main` (lines 230–233), with the 64-bit truncation of `address << t`
  made explicit by `% 2 ^ 64`;
* `step`, `processTrace`      — the trace loop of `main` (lines 229–239);
* `initState`                 — cache creation (lines 211–221): `S = 2^s`
  empty sets and zeroed counters;
* `sweepSet`, `free_cache_sweep` — the dirty-line count of `free_cache`
  (lines 158–177);
* `finalStats`                — the `csim_stats_t` assembly (lines 245–249),
  with `B = 2^b`.
-/

/-- Number of address bits (`#define ADDRESS_BITS 64`). -/
def ADDRESS_BITS : Nat := 64

/-- The `cache_line` struct: valid bit, dirty bit, tag. -/
structure cache_line where
  valid_bit : Bool
  dirty_bit : Bool
  tag : Nat
deriving DecidableEq, Repr

/-- Global counter state together with the cache: `hit`, `miss`, `eviction`,
`dirty_eviction` are the global `int` counters; `cache` is the array of `S`
sets, each set a queue of lines ordered most-recently-used first. -/
structure SimState where
  hit : Nat
  miss : Nat
  eviction : Nat
  dirty_eviction : Nat
  cache : List (List cache_line)
deriving DecidableEq, Repr

/-- The hit-search loop of `count`: walk the queue from the head looking for a
valid line with the matching tag.  On success, return the found line together
with the queue with that node removed (the C code unlinks the node and
reinserts it at the head; removal preserves the relative order of the other
nodes). -/
def scanHit : List cache_line → Nat → Option (cache_line × List cache_line)
  | [], _ => none
  | l :: rest, curr_tag =>
    if l.valid_bit && l.tag == curr_tag then
      some (l, rest)
    else
      match scanHit rest curr_tag with
      | some (found, rest') => some (found, l :: rest')
      | none => none

/-- The `count` function (lines 67–151 of the source).  On a hit: bump `hit`,
set the dirty bit on a store, move the node to the head.  On a miss: bump
`miss`; if the set is at capacity, bump `eviction`, remove the tail node
(bumping `dirty_eviction` if it was dirty), then insert the new line at the
head.  `.error` models the null dereference of `evict_node->line` when the
eviction branch runs with an empty queue (`tail == NULL`, reachable only with
`E ≤ 0`); it carries the counters already updated at the crash point
(`miss` and `eviction` have been incremented by then). -/
def count (E : Nat) (st : SimState) (curr_tag curr_set_num : Nat)
    (dirty : Bool) : Except SimState SimState :=
  let set := st.cache.getD curr_set_num []
  match scanHit set curr_tag with
  | some (found, rest) =>
    let found' := if dirty then { found with dirty_bit := true } else found
    Except.ok { st with
      hit := st.hit + 1,
      cache := st.cache.set curr_set_num (found' :: rest) }
  | none =>
    let st := { st with miss := st.miss + 1 }
    let new_line : cache_line :=
      { tag := curr_tag, valid_bit := true, dirty_bit := dirty }
    if set.length ≥ E then
      let st := { st with eviction := st.eviction + 1 }
      match set.getLast? with
      | none => Except.error st
      | some evicted =>
        let st :=
          if evicted.dirty_bit then
            { st with dirty_eviction := st.dirty_eviction + 1 }
          else st
        Except.ok { st with
          cache := st.cache.set curr_set_num (new_line :: set.dropLast) }
    else
      Except.ok { st with
        cache := st.cache.set curr_set_num (new_line :: set) }

/-- Tag computation `curr_tag = address >> (s + b)` (line 230). -/
def decodeTag (s b address : Nat) : Nat :=
  address >>> (s + b)

/-- The raw set-index computation `(address << t) >> (b + t)` with
`t = ADDRESS_BITS - (s + b)` (line 231); the left shift is truncated to 64
bits as the C `unsigned long` arithmetic is. -/
def decodeSetIndexRaw (s b address : Nat) : Nat :=
  let t := ADDRESS_BITS - (s + b)
  ((address <<< t) % 2 ^ ADDRESS_BITS) >>> (b + t)

/-- The set index actually used: the raw computation, overridden to `0` when
`t == ADDRESS_BITS` (lines 231–233). -/
def decodeSetIndex (s b address : Nat) : Nat :=
  if ADDRESS_BITS - (s + b) = ADDRESS_BITS then 0
  else decodeSetIndexRaw s b address

/-- The shift amounts the decode expressions perform: `s + b` for the tag,
`t` for the left shift and `b + t` for the right shift of the set index
(lines 230–231; both set-index shifts are evaluated before the `t == 64`
guard overrides the result). -/
def decodeShiftAmounts (s b : Nat) : List Nat :=
  let t := ADDRESS_BITS - (s + b)
  [s + b, t, b + t]

/-- One trace record as read by `fscanf("%c %lx,%d")`. -/
structure TraceRecord where
  op : Char
  address : Nat
  size : Int
deriving DecidableEq, Repr

/-- One iteration of the trace loop (lines 229–239): decode the address, then
dispatch on the operation character; any character other than `L` and `S`
leaves the state untouched. -/
def step (s b E : Nat) (st : SimState) (r : TraceRecord) :
    Except SimState SimState :=
  let curr_tag := decodeTag s b r.address
  let curr_set_num := decodeSetIndex s b r.address
  if r.op = 'L' then count E st curr_tag curr_set_num false
  else if r.op = 'S' then count E st curr_tag curr_set_num true
  else Except.ok st

/-- The whole trace loop: process records in order; a crash (`.error`)
terminates the run at once. -/
def processTrace (s b E : Nat) (st : SimState) :
    List TraceRecord → Except SimState SimState
  | [] => Except.ok st
  | r :: rs =>
    match step s b E st r with
    | Except.ok st' => processTrace s b E st' rs
    | Except.error st' => Except.error st'

/-- The initial state built in `main` (lines 211–221): `S = 2^s` empty sets,
all counters zero. -/
def initState (s : Nat) : SimState :=
  { hit := 0, miss := 0, eviction := 0, dirty_eviction := 0,
    cache := List.replicate (2 ^ s) [] }

/-- The inner loop of `free_cache` on one set: walk the queue and bump the
accumulator for every line whose dirty bit is set (lines 163–173). -/
def sweepSet : List cache_line → Nat → Nat
  | [], acc => acc
  | l :: rest, acc => sweepSet rest (if l.dirty_bit then acc + 1 else acc)

/-- The `free_cache` sweep (lines 158–177): accumulate the dirty-line count
over all sets, in set order. -/
def free_cache_sweep : List (List cache_line) → Nat → Nat
  | [], acc => acc
  | set :: rest, acc => free_cache_sweep rest (sweepSet set acc)

/-- The final statistics struct (`csim_stats_t`, filled at lines 245–249):
`dirty_evictions` and `dirty_bytes` are counts multiplied by the block size
`B = 2^b`. -/
structure csim_stats where
  hits : Nat
  misses : Nat
  evictions : Nat
  dirty_evictions : Nat
  dirty_bytes : Nat
deriving DecidableEq, Repr

/-- Assemble the final statistics from the state after the trace loop
(lines 241–249): the dirty-line count comes from the `free_cache` sweep. -/
def finalStats (b : Nat) (st : SimState) : csim_stats :=
  { hits := st.hit
    misses := st.miss
    evictions := st.eviction
    dirty_evictions := st.dirty_eviction * 2 ^ b
    dirty_bytes := free_cache_sweep st.cache 0 * 2 ^ b }

/-! ### Helper lemmas about the hit-search loop -/

/-- A successful scan returns the queue shortened by exactly one node. -/
lemma scanHit_length {set : List cache_line} {tg : Nat} {l : cache_line}
    {rest : List cache_line} (h : scanHit set tg = some (l, rest)) :
    rest.length + 1 = set.length := by
  induction set generalizing rest with
  | nil => simp [scanHit] at h
  | cons x xs ih =>
    unfold scanHit at h
    by_cases hx : (x.valid_bit && x.tag == tg) = true
    · rw [if_pos hx] at h
      cases h
      rfl
    · rw [if_neg hx] at h
      cases hscan : scanHit xs tg with
      | none => rw [hscan] at h; cases h
      | some p =>
        obtain ⟨f, r⟩ := p
        rw [hscan] at h
        cases h
        simpa using ih hscan

/-- A successful scan removes one node: the original queue is a permutation of
the found line consed onto the remainder. -/
lemma scanHit_perm {set : List cache_line} {tg : Nat} {l : cache_line}
    {rest : List cache_line} (h : scanHit set tg = some (l, rest)) :
    set.Perm (l :: rest) := by
  induction set generalizing rest with
  | nil => simp [scanHit] at h
  | cons x xs ih =>
    unfold scanHit at h
    by_cases hx : (x.valid_bit && x.tag == tg) = true
    · rw [if_pos hx] at h
      cases h
      exact List.Perm.refl _
    · rw [if_neg hx] at h
      cases hscan : scanHit xs tg with
      | none => rw [hscan] at h; cases h
      | some p =>
        obtain ⟨f, r⟩ := p
        rw [hscan] at h
        cases h
        exact (List.Perm.cons x (ih hscan)).trans (List.Perm.swap l x r)

/-- The line a successful scan returns is valid and carries the searched tag. -/
lemma scanHit_found {set : List cache_line} {tg : Nat} {l : cache_line}
    {rest : List cache_line} (h : scanHit set tg = some (l, rest)) :
    l.valid_bit = true ∧ l.tag = tg := by
  induction set generalizing rest with
  | nil => simp [scanHit] at h
  | cons x xs ih =>
    unfold scanHit at h
    by_cases hx : (x.valid_bit && x.tag == tg) = true
    · rw [if_pos hx] at h
      cases h
      simpa using hx
    · rw [if_neg hx] at h
      cases hscan : scanHit xs tg with
      | none => rw [hscan] at h; cases h
      | some p =>
        obtain ⟨f, r⟩ := p
        rw [hscan] at h
        cases h
        exact ih hscan

/-- A failed scan means no valid line in the queue carries the tag. -/
lemma scanHit_none {set : List cache_line} {tg : Nat}
    (h : scanHit set tg = none) :
    ∀ l ∈ set, l.valid_bit = true → l.tag ≠ tg := by
  induction set with
  | nil => intro l hl; simp at hl
  | cons x xs ih =>
    unfold scanHit at h
    by_cases hx : (x.valid_bit && x.tag == tg) = true
    · rw [if_pos hx] at h
      cases h
    · rw [if_neg hx] at h
      cases hscan : scanHit xs tg with
      | some p => obtain ⟨f, r⟩ := p; rw [hscan] at h; cases h
      | none =>
        intro l hl hv
        rcases List.mem_cons.mp hl with hlx | hlxs
        · subst hlx
          intro htag
          exact hx (by simp [hv, htag])
        · exact ih hscan l hlxs hv

/-! ### Decoder arithmetic -/

/-- The spec's mask formula `x &&& ((1 << s) - 1)` extracts `x mod 2^s`. -/
lemma mask_eq_mod (x s : Nat) : x &&& ((1 <<< s) - 1) = x % 2 ^ s := by
  rw [Nat.shiftLeft_eq, one_mul, Nat.and_pow_two_sub_one_eq_mod]

/-- The code's set-index computation `(a << t) >> (b + t)` over 64-bit
arithmetic equals `(a >> b) mod 2^s` for any in-range address and geometry. -/
lemma decodeSetIndexRaw_eq_mod {s b a : Nat} (hsb : s + b ≤ 64) :
    decodeSetIndexRaw s b a = (a >>> b) % 2 ^ s := by
  show ((a <<< (64 - (s + b))) % 2 ^ ADDRESS_BITS) >>> (b + (64 - (s + b)))
      = (a >>> b) % 2 ^ s
  unfold ADDRESS_BITS
  have ht : s + b + (64 - (s + b)) = 64 := by omega
  rw [Nat.shiftLeft_eq, Nat.shiftRight_eq_div_pow, Nat.shiftRight_eq_div_pow]
  have h64 : (2 : Nat) ^ 64 = 2 ^ (s + b) * 2 ^ (64 - (s + b)) := by
    rw [← pow_add, ht]
  rw [h64, Nat.mul_mod_mul_right]
  have hbt : (2 : Nat) ^ (b + (64 - (s + b))) = 2 ^ (64 - (s + b)) * 2 ^ b := by
    rw [← pow_add]
    congr 1
    omega
  rw [hbt, ← Nat.div_div_eq_div_mul,
    Nat.mul_div_cancel _ (Nat.pos_pow_of_pos _ (by norm_num))]
  have hsplit : (2 : Nat) ^ (s + b) = 2 ^ b * 2 ^ s := by
    rw [← pow_add]
    congr 1
    omega
  rw [hsplit, Nat.mod_mul_right_div_self]

/-- C1: for every 64-bit address and geometry with `s + b ≤ 64`, the decoder
produces `tag = a >> (s + b)` and `set_index = (a >> b) &&& ((1 << s) - 1)`;
in particular the code's raw computation `(a << t) >> (b + t)` with
`t = 64 - s - b` equals the mask formula for every address. -/
theorem C1_decoder_mask (s b a : Nat) (ha : a < 2 ^ 64) (hsb : s + b ≤ 64) :
    decodeTag s b a = a >>> (s + b) ∧
    decodeSetIndex s b a = (a >>> b) &&& ((1 <<< s) - 1) ∧
    decodeSetIndexRaw s b a = (a >>> b) &&& ((1 <<< s) - 1) := by
  have hraw : decodeSetIndexRaw s b a = (a >>> b) % 2 ^ s :=
    decodeSetIndexRaw_eq_mod hsb
  refine ⟨rfl, ?_, by rw [hraw, mask_eq_mod]⟩
  rw [mask_eq_mod]
  unfold decodeSetIndex ADDRESS_BITS
  by_cases h0 : 64 - (s + b) = 64
  · have hs : s = 0 := by omega
    rw [if_pos h0, hs]
    simp [Nat.mod_one]
  · rw [if_neg h0]
    exact hraw.trans rfl

/-- Witness for C1 at the concrete input `s = 2`, `b = 3`, `a = 0xabcd`. -/
theorem C1_decoder_mask_witness :
    decodeTag 2 3 0xabcd = 0xabcd >>> (2 + 3) ∧
    decodeSetIndex 2 3 0xabcd = (0xabcd >>> 3) &&& ((1 <<< 2) - 1) ∧
    decodeSetIndexRaw 2 3 0xabcd = (0xabcd >>> 3) &&& ((1 <<< 2) - 1) :=
  C1_decoder_mask 2 3 0xabcd (by norm_num) (by norm_num)

/-- C4 counterexample: at the geometry `s = 0`, `b = 0` (which satisfies
`s + b ≤ 64`), the decode expressions perform a shift by 64 bits — the left
shift by `t = 64` and the right shift by `b + t = 64` at line 231 are both
evaluated before the `t == 64` guard overrides the result — so it is false
that every shift amount is below 64. -/
theorem C4_counterexample : ¬ (∀ k ∈ decodeShiftAmounts 0 0, k < 64) := by
  decide

/-- C4 amended: shifts stay below 64 bits only on geometries with `1 ≤ s` and
`s + b < 64` (for `s = 0` the set-index right shift amount is `b + t = 64`,
and for `s + b = 64` the tag shift amount is 64); the second half of the
claim stands as stated: whenever `s = 0`, the computed set index is 0 under
the 64-bit-truncating shift semantics. -/
theorem C4_no_shift_overflow_amended (s b a : Nat) (ha : a < 2 ^ 64)
    (hsb : s + b ≤ 64) :
    (1 ≤ s → s + b < 64 → ∀ k ∈ decodeShiftAmounts s b, k < 64) ∧
    (s = 0 → decodeSetIndex s b a = 0) := by
  constructor
  · intro hs hlt k hk
    simp only [decodeShiftAmounts, ADDRESS_BITS, List.mem_cons,
      List.not_mem_nil, or_false] at hk
    rcases hk with h | h | h <;> omega
  · intro hs
    subst hs
    unfold decodeSetIndex ADDRESS_BITS
    by_cases h0 : 64 - (0 + b) = 64
    · rw [if_pos h0]
    · rw [if_neg h0, decodeSetIndexRaw_eq_mod hsb, pow_zero, Nat.mod_one]

/-- Witness for the amended C4 at `s = 1`, `b = 2`, `a = 5`. -/
theorem C4_no_shift_overflow_amended_witness :
    (1 ≤ 1 → 1 + 2 < 64 → ∀ k ∈ decodeShiftAmounts 1 2, k < 64) ∧
    (1 = 0 → decodeSetIndex 1 2 5 = 0) :=
  C4_no_shift_overflow_amended 1 2 5 (by norm_num) (by norm_num)

/-- C5: the program performs no geometry validation.  At the invalid geometry
`s = 0`, `b = 0`, `E = 0`, the very first `Load` takes the miss path
(`miss` is incremented), enters the eviction branch (`eviction` is
incremented), and then dereferences the null `tail` pointer of the empty set
— modelled by the `.error` outcome — so a partial result exists and no
configuration error is reported before simulation. -/
theorem C5_no_geometry_validation :
    processTrace 0 0 0 (initState 0) [⟨'L', 0, 1⟩] =
      Except.error
        { hit := 0, miss := 1, eviction := 1, dirty_eviction := 0,
          cache := [[]] } := by
  rfl

/-- C9: a trace record whose operation character is neither `L` nor `S`
leaves the entire state untouched: no counter changes, no cache change, no
error. -/
theorem C9_other_op_ignored (s b E : Nat) (st : SimState) (r : TraceRecord)
    (hL : r.op ≠ 'L') (hS : r.op ≠ 'S') :
    step s b E st r = Except.ok st := by
  simp [step, hL, hS]

/-- Witness for C9: a record with operation character `M` is ignored. -/
theorem C9_other_op_ignored_witness :
    step 0 0 1 (initState 0) ⟨'M', 4, 1⟩ = Except.ok (initState 0) :=
  C9_other_op_ignored 0 0 1 (initState 0) ⟨'M', 4, 1⟩ (by decide) (by decide)

/-- C3: with associativity `E = 2` and an initially empty set, accessing tags
`A, B, A, C` (pairwise distinct) on the same set gives one hit (the second
access to `A`, which promotes it to most recently used) and evicts `B` on the
miss for `C`: the final set holds `C` (MRU) and `A`, with exactly one
eviction.  The geometry `s = 0`, `b = 0` sends every address to set 0 with
the address itself as tag. -/
theorem C3_lru_order (A B C : Nat) (hAB : A ≠ B) (hAC : A ≠ C) (hBC : B ≠ C) :
    processTrace 0 0 2 (initState 0)
      [⟨'L', A, 1⟩, ⟨'L', B, 1⟩, ⟨'L', A, 1⟩, ⟨'L', C, 1⟩] =
    Except.ok
      { hit := 1, miss := 3, eviction := 1, dirty_eviction := 0,
        cache := [[⟨true, false, C⟩, ⟨true, false, A⟩]] } := by
  have hBA : B ≠ A := Ne.symm hAB
  have hCA : C ≠ A := Ne.symm hAC
  have hCB : C ≠ B := Ne.symm hBC
  simp [processTrace, step, count, scanHit, decodeTag, decodeSetIndex,
    decodeSetIndexRaw, decodeShiftAmounts, initState, ADDRESS_BITS,
    hAB, hAC, hBC, hBA, hCA, hCB]

/-- Witness for C3 at the concrete tags `A = 10`, `B = 20`, `C = 30`. -/
theorem C3_lru_order_witness :
    processTrace 0 0 2 (initState 0)
      [⟨'L', 10, 1⟩, ⟨'L', 20, 1⟩, ⟨'L', 10, 1⟩, ⟨'L', 30, 1⟩] =
    Except.ok
      { hit := 1, miss := 3, eviction := 1, dirty_eviction := 0,
        cache := [[⟨true, false, 30⟩, ⟨true, false, 10⟩]] } :=
  C3_lru_order 10 20 30 (by decide) (by decide) (by decide)

lemma count_ok_cases {E tg i : Nat} {d : Bool} {st st' : SimState}
    (h : count E st tg i d = Except.ok st') :
    (∃ l rest, scanHit (st.cache.getD i []) tg = some (l, rest) ∧
      st' = { st with
              hit := st.hit + 1,
              cache := st.cache.set i
                ((if d then { l with dirty_bit := true } else l) :: rest) }) ∨
    (scanHit (st.cache.getD i []) tg = none ∧
      (st.cache.getD i []).length < E ∧
      st' = { st with
              miss := st.miss + 1,
              cache := st.cache.set i
                ({ tag := tg, valid_bit := true, dirty_bit := d } ::
                  st.cache.getD i []) }) ∨
    (∃ ev, scanHit (st.cache.getD i []) tg = none ∧
      (st.cache.getD i []).length ≥ E ∧
      (st.cache.getD i []).getLast? = some ev ∧
      st' = { st with
              miss := st.miss + 1,
              eviction := st.eviction + 1,
              dirty_eviction :=
                if ev.dirty_bit then st.dirty_eviction + 1
                else st.dirty_eviction,
              cache := st.cache.set i
                ({ tag := tg, valid_bit := true, dirty_bit := d } ::
                  (st.cache.getD i []).dropLast) }) := by
  simp only [count] at h
  split at h
  next l rest heq =>
    left
    refine ⟨l, rest, heq, ?_⟩
    cases h
    rfl
  next heq =>
    split at h
    next hge =>
      split at h
      next hlast => cases h
      next ev hlast =>
        right; right
        refine ⟨ev, heq, hge, hlast, ?_⟩
        by_cases hdirt : ev.dirty_bit = true
        · rw [if_pos hdirt] at h ⊢
          cases h
          rfl
        · rw [if_neg hdirt] at h ⊢
          cases h
          rfl
    next hge =>
      right; left
      refine ⟨heq, by omega, ?_⟩
      cases h
      rfl

/-- Capacity predicate on the cache array: every set holds at most `E` lines. -/
def CacheCap (E : Nat) (c : List (List cache_line)) : Prop :=
  ∀ set ∈ c, set.length ≤ E

lemma getD_mem_or_nil (c : List (List cache_line)) (i : Nat) :
    c.getD i [] ∈ c ∨ c.getD i [] = [] := by
  rcases Nat.lt_or_ge i c.length with hi | hi
  · left
    rw [List.getD_eq_getElem _ _ hi]
    exact List.getElem_mem hi
  · right
    rw [List.getD_eq_getElem?_getD, List.getElem?_eq_none hi]
    rfl

lemma CacheCap_getD {E : Nat} {c : List (List cache_line)} (hc : CacheCap E c)
    (i : Nat) : (c.getD i []).length ≤ E := by
  rcases getD_mem_or_nil c i with hm | hnil
  · exact hc _ hm
  · rw [hnil]
    exact Nat.zero_le E

lemma CacheCap_set {E : Nat} {c : List (List cache_line)} {i : Nat}
    {newSet : List cache_line} (hc : CacheCap E c) (hlen : newSet.length ≤ E) :
    CacheCap E (c.set i newSet) := by
  intro set hset
  rcases List.mem_or_eq_of_mem_set hset with hm | he
  · exact hc _ hm
  · rw [he]
    exact hlen

lemma count_CacheCap {E tg i : Nat} {d : Bool} {st st' : SimState}
    (h : count E st tg i d = Except.ok st') (hc : CacheCap E st.cache) :
    CacheCap E st'.cache := by
  rcases count_ok_cases h with
    ⟨l, rest, hscan, rfl⟩ | ⟨hscan, hlt, rfl⟩ | ⟨ev, hscan, hge, hlast, rfl⟩
  · apply CacheCap_set hc
    rw [List.length_cons, scanHit_length hscan]
    exact CacheCap_getD hc i
  · apply CacheCap_set hc
    rw [List.length_cons]
    omega
  · apply CacheCap_set hc
    have hne : st.cache.getD i [] ≠ [] := by
      intro he
      rw [he] at hlast
      cases hlast
    have hpos : 0 < (st.cache.getD i []).length := List.length_pos.mpr hne
    have hle := CacheCap_getD hc i
    rw [List.length_cons, List.length_dropLast]
    omega

lemma step_cacheInv {P : List (List cache_line) → Prop} {s b E : Nat}
    {st st' : SimState} {r : TraceRecord}
    (hcount : ∀ tg i d (st st' : SimState),
      count E st tg i d = Except.ok st' → P st.cache → P st'.cache)
    (h : step s b E st r = Except.ok st') (hP : P st.cache) : P st'.cache := by
  unfold step at h
  split at h
  · exact hcount _ _ _ _ _ h hP
  · split at h
    · exact hcount _ _ _ _ _ h hP
    · cases h
      exact hP

lemma processTrace_cacheInv {P : List (List cache_line) → Prop} {s b E : Nat}
    {st st' : SimState} {trace : List TraceRecord}
    (hcount : ∀ tg i d (st st' : SimState),
      count E st tg i d = Except.ok st' → P st.cache → P st'.cache)
    (h : processTrace s b E st trace = Except.ok st') (hP : P st.cache) :
    P st'.cache := by
  induction trace generalizing st with
  | nil =>
    unfold processTrace at h
    cases h
    exact hP
  | cons r rs ih =>
    unfold processTrace at h
    cases hstep : step s b E st r with
    | ok st1 =>
      rw [hstep] at h
      exact ih h (step_cacheInv hcount hstep hP)
    | error st1 =>
      rw [hstep] at h
      cases h

/-- C2: for every run of the simulator (any geometry, `E ≥ 1`), after each
access completes every set holds at most `E` lines. -/
theorem C2_capacity (s b E : Nat) (hE : 1 ≤ E) (trace : List TraceRecord)
    (st : SimState)
    (h : processTrace s b E (initState s) trace = Except.ok st) :
    ∀ set ∈ st.cache, set.length ≤ E := by
  refine processTrace_cacheInv (P := CacheCap E)
    (fun tg i d st st' hok hc => count_CacheCap hok hc) h ?_
  intro set hset
  rw [List.eq_of_mem_replicate hset]
  exact Nat.zero_le E

theorem C2_capacity_witness :
    ([⟨true, false, 0⟩] : List cache_line).length ≤ 1 :=
  C2_capacity 0 0 1 (by decide) [⟨'L', 0, 1⟩]
    (SimState.mk 0 1 0 0 [[⟨true, false, 0⟩]]) (by rfl) _ (by decide)

/-- Uniqueness predicate on one set: the tags of its valid lines are
pairwise distinct. -/
def ValidTagsNodup (set : List cache_line) : Prop :=
  ((set.filter fun l => l.valid_bit).map cache_line.tag).Nodup

/-- Uniqueness predicate on the cache array. -/
def CacheUniq (c : List (List cache_line)) : Prop :=
  ∀ set ∈ c, ValidTagsNodup set

lemma CacheUniq_getD {c : List (List cache_line)} (hc : CacheUniq c)
    (i : Nat) : ValidTagsNodup (c.getD i []) := by
  rcases getD_mem_or_nil c i with hm | hnil
  · exact hc _ hm
  · rw [hnil]
    exact List.nodup_nil

lemma CacheUniq_set {c : List (List cache_line)} {i : Nat}
    {newSet : List cache_line} (hc : CacheUniq c)
    (hnew : ValidTagsNodup newSet) : CacheUniq (c.set i newSet) := by
  intro set hset
  rcases List.mem_or_eq_of_mem_set hset with hm | he
  · exact hc _ hm
  · rw [he]
    exact hnew

lemma validTags_cons_update (l : cache_line) (d : Bool)
    (rest : List cache_line) :
    (((if d then { l with dirty_bit := true } else l) :: rest).filter
        (fun l => l.valid_bit)).map cache_line.tag =
    ((l :: rest).filter (fun l => l.valid_bit)).map cache_line.tag := by
  cases d <;> cases hv : l.valid_bit <;> simp [List.filter, hv]

lemma ValidTagsNodup_hit {set rest : List cache_line} {tg : Nat}
    {l : cache_line} (d : Bool)
    (hscan : scanHit set tg = some (l, rest)) (hu : ValidTagsNodup set) :
    ValidTagsNodup ((if d then { l with dirty_bit := true } else l) :: rest) := by
  unfold ValidTagsNodup at hu ⊢
  rw [validTags_cons_update]
  exact (((scanHit_perm hscan).filter _).map _).nodup_iff.mp hu

lemma not_mem_validTags {set' set : List cache_line} {tg : Nat}
    (hsub : set'.Sublist set) (hscan : scanHit set tg = none) :
    tg ∉ (set'.filter fun l => l.valid_bit).map cache_line.tag := by
  intro hmem
  rcases List.mem_map.mp hmem with ⟨l, hl, htag⟩
  rcases List.mem_filter.mp hl with ⟨hl', hv⟩
  exact scanHit_none hscan l (hsub.subset hl') hv htag

lemma ValidTagsNodup_insert {set set' : List cache_line} {tg : Nat} (d : Bool)
    (hsub : set'.Sublist set) (hscan : scanHit set tg = none)
    (hu : ValidTagsNodup set) :
    ValidTagsNodup ({ tag := tg, valid_bit := true, dirty_bit := d } :: set') := by
  unfold ValidTagsNodup at hu ⊢
  rw [List.filter_cons_of_pos (by rfl), List.map_cons, List.nodup_cons]
  exact ⟨not_mem_validTags hsub hscan,
    List.Nodup.sublist ((hsub.filter _).map _) hu⟩

lemma count_CacheUniq {E tg i : Nat} {d : Bool} {st st' : SimState}
    (h : count E st tg i d = Except.ok st') (hc : CacheUniq st.cache) :
    CacheUniq st'.cache := by
  rcases count_ok_cases h with
    ⟨l, rest, hscan, rfl⟩ | ⟨hscan, hlt, rfl⟩ | ⟨ev, hscan, hge, hlast, rfl⟩
  · exact CacheUniq_set hc (ValidTagsNodup_hit d hscan (CacheUniq_getD hc i))
  · exact CacheUniq_set hc
      (ValidTagsNodup_insert d (List.Sublist.refl _) hscan (CacheUniq_getD hc i))
  · exact CacheUniq_set hc
      (ValidTagsNodup_insert d (List.dropLast_sublist _) hscan
        (CacheUniq_getD hc i))

/-- C8: in every state a run of the simulator can reach, no two valid lines
within one set carry the same tag (the tags of the valid lines of every set
are pairwise distinct).  Every intermediate point of a run is the final state
of the run on the corresponding trace prefix, so quantifying over all traces
covers every point of the simulation. -/
theorem C8_tag_uniqueness (s b E : Nat) (trace : List TraceRecord)
    (st : SimState)
    (h : processTrace s b E (initState s) trace = Except.ok st) :
    ∀ set ∈ st.cache,
      ((set.filter fun l => l.valid_bit).map cache_line.tag).Nodup := by
  refine processTrace_cacheInv (P := CacheUniq)
    (fun tg i d st st' hok hc => count_CacheUniq hok hc) h ?_
  intro set hset
  rw [List.eq_of_mem_replicate hset]
  exact List.nodup_nil

theorem C8_tag_uniqueness_witness :
    ((([⟨true, true, 0⟩] : List cache_line).filter
      fun l => l.valid_bit).map cache_line.tag).Nodup :=
  C8_tag_uniqueness 0 0 1 [⟨'L', 0, 1⟩, ⟨'S', 0, 1⟩]
    (SimState.mk 1 1 0 0 [[⟨true, true, 0⟩]]) (by rfl) _ (by decide)

lemma sweepSet_eq (set : List cache_line) (acc : Nat) :
    sweepSet set acc = acc + (set.filter fun l => l.dirty_bit).length := by
  induction set generalizing acc with
  | nil => simp [sweepSet]
  | cons l rest ih =>
    cases hd : l.dirty_bit <;> simp [sweepSet, hd, ih] <;> omega

lemma free_cache_sweep_eq (c : List (List cache_line)) (acc : Nat) :
    free_cache_sweep c acc =
      acc + (c.map fun set => (set.filter fun l => l.dirty_bit).length).sum := by
  induction c generalizing acc with
  | nil => simp [free_cache_sweep]
  | cons set rest ih =>
    simp [free_cache_sweep, ih, sweepSet_eq]
    omega

/-- C7: the reported `dirty_bytes` equals the number of dirty lines resident
in the final cache times the block size `2^b`; it is computed by the single
teardown sweep from the final cache alone, so no per-access step contributes
to it (two states with the same final cache report the same `dirty_bytes`,
whatever their counters). -/
theorem C7_dirty_bytes_sweep (s b E : Nat) (trace : List TraceRecord)
    (st : SimState)
    (h : processTrace s b E (initState s) trace = Except.ok st) :
    (finalStats b st).dirty_bytes =
      (st.cache.map fun set =>
        (set.filter fun l => l.dirty_bit).length).sum * 2 ^ b ∧
    ∀ st2 : SimState, st2.cache = st.cache →
      (finalStats b st2).dirty_bytes = (finalStats b st).dirty_bytes := by
  constructor
  · simp [finalStats, free_cache_sweep_eq]
  · intro st2 hcache
    simp [finalStats, hcache]

theorem C7_dirty_bytes_sweep_witness :
    (finalStats 0 (SimState.mk 0 1 0 0 [[⟨true, true, 0⟩]])).dirty_bytes =
      ((SimState.mk 0 1 0 0 [[⟨true, true, 0⟩]]).cache.map fun set =>
        (set.filter fun l => l.dirty_bit).length).sum * 2 ^ 0 ∧
    ∀ st2 : SimState,
      st2.cache = (SimState.mk 0 1 0 0 [[⟨true, true, 0⟩]]).cache →
      (finalStats 0 st2).dirty_bytes =
        (finalStats 0 (SimState.mk 0 1 0 0 [[⟨true, true, 0⟩]])).dirty_bytes :=
  C7_dirty_bytes_sweep 0 0 1 [⟨'S', 0, 1⟩] _ (by rfl)

/-- C6: (1) a `Store` hit on a resident line sets that line's dirty flag (the
line is reinserted at the head with `dirty_bit = true`); (2) a `Load` hit on
the same line reinserts it unchanged, so the dirty flag is not cleared;
(3) when a dirty line is evicted, `dirty_eviction` is incremented by one, so
the reported `dirty_eviction_bytes` grows by exactly one block size `2^b`. -/
theorem C6_dirty_propagation (E b i T i2 T2 : Nat) (d2 : Bool)
    (st1 st2 : SimState) (l ev : cache_line) (rest : List cache_line)
    (hfind : scanHit (st1.cache.getD i []) T = some (l, rest))
    (hmiss : scanHit (st2.cache.getD i2 []) T2 = none)
    (hlen : (st2.cache.getD i2 []).length ≥ E)
    (hlast : (st2.cache.getD i2 []).getLast? = some ev)
    (hdirty : ev.dirty_bit = true) :
    (count E st1 T i true = Except.ok { st1 with
        hit := st1.hit + 1,
        cache := st1.cache.set i ({ l with dirty_bit := true } :: rest) }) ∧
    (count E st1 T i false = Except.ok { st1 with
        hit := st1.hit + 1,
        cache := st1.cache.set i (l :: rest) }) ∧
    (∃ st', count E st2 T2 i2 d2 = Except.ok st' ∧
      st'.dirty_eviction = st2.dirty_eviction + 1 ∧
      (finalStats b st').dirty_evictions =
        (finalStats b st2).dirty_evictions + 2 ^ b) := by
  refine ⟨?_, ?_, ?_⟩
  · simp only [count, hfind]
    rfl
  · simp only [count, hfind]
    rfl
  · refine ⟨{ st2 with
        miss := st2.miss + 1,
        eviction := st2.eviction + 1,
        dirty_eviction := st2.dirty_eviction + 1,
        cache := st2.cache.set i2
          ({ tag := T2, valid_bit := true, dirty_bit := d2 } ::
            (st2.cache.getD i2 []).dropLast) }, ?_, rfl, ?_⟩
    · simp only [count, hmiss]
      rw [if_pos hlen, hlast]
      simp [hdirty]
    · simp [finalStats, Nat.add_mul]

theorem C6_dirty_propagation_witness :
    (count 1 (SimState.mk 0 0 0 0 [[⟨true, false, 7⟩]]) 7 0 true =
      Except.ok { SimState.mk 0 0 0 0 [[⟨true, false, 7⟩]] with
        hit := (SimState.mk 0 0 0 0 [[⟨true, false, 7⟩]]).hit + 1,
        cache := (SimState.mk 0 0 0 0 [[⟨true, false, 7⟩]]).cache.set 0
          ({ (⟨true, false, 7⟩ : cache_line) with dirty_bit := true } :: []) }) ∧
    (count 1 (SimState.mk 0 0 0 0 [[⟨true, false, 7⟩]]) 7 0 false =
      Except.ok { SimState.mk 0 0 0 0 [[⟨true, false, 7⟩]] with
        hit := (SimState.mk 0 0 0 0 [[⟨true, false, 7⟩]]).hit + 1,
        cache := (SimState.mk 0 0 0 0 [[⟨true, false, 7⟩]]).cache.set 0
          ((⟨true, false, 7⟩ : cache_line) :: []) }) ∧
    (∃ st', count 1 (SimState.mk 0 0 0 0 [[⟨true, true, 3⟩]]) 4 0 false =
      Except.ok st' ∧
      st'.dirty_eviction = (SimState.mk 0 0 0 0 [[⟨true, true, 3⟩]]).dirty_eviction + 1 ∧
      (finalStats 5 st').dirty_evictions =
        (finalStats 5 (SimState.mk 0 0 0 0 [[⟨true, true, 3⟩]])).dirty_evictions + 2 ^ 5) :=
  C6_dirty_propagation 1 5 0 7 0 4 false
    (SimState.mk 0 0 0 0 [[⟨true, false, 7⟩]])
    (SimState.mk 0 0 0 0 [[⟨true, true, 3⟩]])
    ⟨true, false, 7⟩ ⟨true, true, 3⟩ []
    (by rfl) (by rfl) (by decide) (by rfl) (by rfl)

lemma getD_set_ne (c : List (List cache_line)) (i j : Nat)
    (newSet : List cache_line) (hj : j ≠ i) :
    (c.set i newSet).getD j [] = c.getD j [] := by
  rw [List.getD_eq_getElem?_getD, List.getD_eq_getElem?_getD,
    List.getElem?_set_ne (Ne.symm hj)]

/-- C10: an access to set `i` touches only set `i`: every other set of the
cache is unchanged (lines, order, dirty flags, count), the number of sets is
unchanged, and an access that hits changes no set's resident line count
(including set `i`'s). -/
theorem C10_access_frame (E tg i : Nat) (d : Bool) (st st' : SimState)
    (h : count E st tg i d = Except.ok st') :
    (∀ j, j ≠ i → st'.cache.getD j [] = st.cache.getD j []) ∧
    st'.cache.length = st.cache.length ∧
    (∀ l rest, scanHit (st.cache.getD i []) tg = some (l, rest) →
      ∀ j, (st'.cache.getD j []).length = (st.cache.getD j []).length) := by
  rcases count_ok_cases h with
    ⟨l, rest, hscan, rfl⟩ | ⟨hscan, hlt, rfl⟩ | ⟨ev, hscan, hge, hlast, rfl⟩
  · refine ⟨fun j hj => getD_set_ne _ _ _ _ hj, List.length_set _ _ _, ?_⟩
    intro l2 rest2 hscan2 j
    by_cases hj : j = i
    · subst hj
      by_cases hlt : j < st.cache.length
      · rw [List.getD_eq_getElem?_getD, List.getElem?_set_self hlt]
        simp only [Option.getD_some, List.length_cons, scanHit_length hscan]
      · rw [List.set_eq_of_length_le (Nat.le_of_not_lt hlt)]
    · rw [getD_set_ne _ _ _ _ hj]
  · refine ⟨fun j hj => getD_set_ne _ _ _ _ hj, List.length_set _ _ _, ?_⟩
    intro l2 rest2 hscan2 j
    rw [hscan] at hscan2
    cases hscan2
  · refine ⟨fun j hj => getD_set_ne _ _ _ _ hj, List.length_set _ _ _, ?_⟩
    intro l2 rest2 hscan2 j
    rw [hscan] at hscan2
    cases hscan2

theorem C10_access_frame_witness :
    (∀ j, j ≠ 0 →
      (SimState.mk 1 0 0 0 [[⟨true, false, 3⟩]]).cache.getD j [] =
      (SimState.mk 0 0 0 0 [[⟨true, false, 3⟩]]).cache.getD j []) ∧
    (SimState.mk 1 0 0 0 [[⟨true, false, 3⟩]]).cache.length =
      (SimState.mk 0 0 0 0 [[⟨true, false, 3⟩]]).cache.length ∧
    (∀ l rest,
      scanHit ((SimState.mk 0 0 0 0 [[⟨true, false, 3⟩]]).cache.getD 0 []) 3 =
        some (l, rest) →
      ∀ j, ((SimState.mk 1 0 0 0 [[⟨true, false, 3⟩]]).cache.getD j []).length =
        ((SimState.mk 0 0 0 0 [[⟨true, false, 3⟩]]).cache.getD j []).length) :=
  C10_access_frame 1 3 0 false
    (SimState.mk 0 0 0 0 [[⟨true, false, 3⟩]])
    (SimState.mk 1 0 0 0 [[⟨true, false, 3⟩]]) (by rfl)
